import Mathlib

/-!
Verification of the linked-issue JQL function resolver.

The development shallowly embeds the resolver's source: key-set JQL
serialization (`buildIssueKeySetJql`), the single-argument mini-language
parser (`parseArg`), the four relationship extractors, the paginated seed
retrieval with its enhanced/legacy protocol pair (`searchSeedIssues`), and
the entry point (`issuesWithText`).  JavaScript strings are modelled as
Lean `String`s, but every string operation the source uses (`trim`,
`toLowerCase`, `replace`, `includes`, template literals) is given an
explicit char-list definition so that theorems can reason symbolically.
Optional / possibly-absent JavaScript values are modelled with `Option`,
and JavaScript string truthiness (`if (x)`) as being nonempty.
-/

namespace LinkedIssueJql

/-- The single-quote character, written via its code point to keep string
literals free of quote characters. -/
def squote : Char := Char.ofNat 39

/-- The backslash character. -/
def bslash : Char := Char.ofNat 92

/-- A one-character string holding a single quote. -/
def squoteS : String := String.mk [squote]

/-- Is a character JavaScript whitespace (ASCII fragment that the source
relies on). -/
def isWs (c : Char) : Bool := c.isWhitespace

/-- Drop leading whitespace from a char list. -/
def dropWs (l : List Char) : List Char := l.dropWhile isWs

/-- Char-list model of `String.prototype.trim`. -/
def trimChars (l : List Char) : List Char := (dropWs (dropWs l).reverse).reverse

/-- Model of `s.trim()`. -/
def jsTrim (s : String) : String := String.mk (trimChars s.data)

/-- Model of `s.toLowerCase()` (ASCII case folding, which is all the
source relies on). -/
def lowerStr (s : String) : String := String.mk (s.data.map Char.toLower)

/-- Model of `String(o || '')` applied to an optional string. -/
def optStr (o : Option String) : String := o.getD ""

/-- Model of `k.replace(/'/g, "\\'")` on the char list: every single
quote is replaced by backslash-quote. -/
def escapeChars : List Char → List Char
  | [] => []
  | c :: rest => if c = squote then bslash :: squote :: escapeChars rest else c :: escapeChars rest

/-- Model of `String(k).replace(/'/g, "\\'")`. -/
def escapeKey (s : String) : String := String.mk (escapeChars s.data)

/-- Model of `` `'${escaped}'` ``: the escaped key wrapped in single quotes. -/
def quoteKey (s : String) : String := squoteS ++ escapeKey s ++ squoteS

/-- Model of `Array.prototype.join(sep)`. -/
def joinWith (sep : String) : List String → String
  | [] => ""
  | [x] => x
  | x :: xs => x ++ sep ++ joinWith sep xs

/-- The nothing-matches sentinel clause `issuekey = "__NO_MATCH__"`
(`SAFE_NO_MATCH` in the source). -/
def SAFE_NO_MATCH : String := "issuekey = \"__NO_MATCH__\""

/-- The everything-matches sentinel `issuekey != "__NO_MATCH__"`, the
negation of `SAFE_NO_MATCH`, returned for an empty key set when negated. -/
def NO_MATCH_NEG : String := "issuekey != \"__NO_MATCH__\""

/-- Fragment builder `buildIssueKeySetJql(keys, negate)` from the source:
empty set yields a sentinel, otherwise an `issuekey in (...)` /
`issuekey not in (...)` clause over the quoted, escaped keys. -/
def buildIssueKeySetJql (keys : List String) (negate : Bool) : String :=
  if keys.isEmpty then
    if negate then NO_MATCH_NEG else SAFE_NO_MATCH
  else
    "issuekey " ++ (if negate then "not in" else "in") ++ " (" ++
      joinWith ", " (keys.map quoteKey) ++ ")"

/-- Checker for the escaping property: `true` when the char list contains
no single quote except immediately after a backslash. -/
def noBareQuote : List Char → Bool
  | [] => true
  | [c] => !(c = squote)
  | c :: c2 :: rest =>
    if c = squote then false
    else if c = bslash ∧ c2 = squote then noBareQuote rest
    else noBareQuote (c2 :: rest)

/-- Inverse of the escaping step: turns each backslash-quote pair back
into a bare quote.  Used to state that escaping loses no information. -/
def unescapeChars : List Char → List Char
  | [] => []
  | [c] => [c]
  | c :: c2 :: rest =>
    if c = bslash ∧ c2 = squote then squote :: unescapeChars rest
    else c :: unescapeChars (c2 :: rest)

/-! ### Argument parser -/

/-- The relationship modes after normalisation (`substask` is parsed as
`subtask`; `epic-of` is the epic-parent mode). -/
inductive Mode where
  | parent
  | epicOf
  | linked
  | subtask
deriving DecidableEq

/-- Link direction of a relationship filter. -/
inductive Direction where
  | inward
  | outward
deriving DecidableEq

/-- The parsed relationship filter `{ typeHint?, direction? }` attached to
the `linked` mode (the source stores a possibly empty `typeHint` string
and an optional validated direction). -/
structure LinkFilter where
  typeHint : String
  direction : Option Direction
deriving DecidableEq

/-- Result of `parseArg`: `{ mode, linkFilter, innerJql }`. -/
structure Parsed where
  mode : Mode
  linkFilter : Option LinkFilter
  innerJql : String
deriving DecidableEq

/-- Case-insensitive prefix test: does the char list start with the given
(lowercase) token?  Models matching one case-insensitive mode
alternative of the parse regex. -/
def charsLowerMatch : List Char → List Char → Bool
  | [], _ => true
  | _ :: _, [] => false
  | t :: ts, c :: cs => (c.toLower == t) && charsLowerMatch ts cs

/-- Split a char list at the first occurrence of `target`, returning the
parts before and after it, or `none` when `target` is absent. -/
def splitAtChar (target : Char) : List Char → Option (List Char × List Char)
  | [] => none
  | c :: rest =>
    if c = target then some ([], rest)
    else (splitAtChar target rest).map (fun p => (c :: p.1, p.2))

/-- The mode alternatives of the parse regex, in alternation order, each
with the normalised mode it produces (`substask` is the typo alias of
`subtask`). -/
def modeTokens : List (String × Mode) :=
  [("parent", Mode.parent), ("epic-of", Mode.epicOf), ("linked", Mode.linked),
   ("subtask", Mode.subtask), ("substask", Mode.subtask)]

def findModeAux : List (String × Mode) → List Char → Option (Mode × List Char)
  | [], _ => none
  | (tok, m) :: ts, s =>
    if charsLowerMatch tok.data s then some (m, s.drop tok.data.length)
    else findModeAux ts s

/-- Match the leading case-insensitive mode token of the argument and
return the normalised mode with the remaining characters. -/
def findMode (s : List Char) : Option (Mode × List Char) := findModeAux modeTokens s

/-- Body of the colon tail once leading whitespace is dropped: the core
must be nonempty and free of line terminators (`.` matches neither `\n`
nor `\r`), and is returned trimmed (`m[4].trim()`). -/
def colonBody (core : List Char) : Option String :=
  if core.isEmpty then none
  else if core.any (fun ch => (ch == '\n') || (ch == '\r')) then none
  else some (jsTrim (String.mk core))

/-- Colon tail after whitespace removal: expect a literal colon, then the
body on the whitespace-stripped remainder. -/
def colonCore : List Char → Option String
  | [] => none
  | c :: rest => if c = ':' then colonBody (dropWs rest) else none

/-- Model of the regex tail `\s*:\s*(.+)$`: after optional whitespace a
colon, then a nonempty newline-free remainder, returned trimmed. -/
def parseColonTail (l : List Char) : Option String := colonCore (dropWs l)

/-- Direction keyword check after the `->` arrow: up to whitespace and
case the remaining text must be `inward` or `outward`. -/
def bracketDir (pre after : List Char) : Option (String × Option Direction) :=
  let d := lowerStr (jsTrim (String.mk after))
  if d = "inward" then some (jsTrim (String.mk pre), some Direction.inward)
  else if d = "outward" then some (jsTrim (String.mk pre), some Direction.outward)
  else none

/-- Arrow half of the bracket interior: the first dash must be followed by
`>` and a direction keyword, and the hint before the dash must be
nonempty. -/
def bracketArrow : List Char → List Char → Option (String × Option Direction)
  | _, [] => none
  | pre, c :: after =>
    if pre.isEmpty then none
    else if c = '>' then bracketDir pre after else none

/-- Dash-free half of the bracket interior: the content itself is the
hint and must be nonempty. -/
def bracketNoDash (content : List Char) : Option (String × Option Direction) :=
  if content.isEmpty then none
  else some (jsTrim (String.mk content), none)

/-- Model of the bracket interior `\s*([^\]\-]+?)(?:\s*->\s*(inward|outward))?\s*`:
the hint is everything before the first dash (at least one character, so
a dash directly after `[` never matches), trimmed; a dash must start a
literal `->` followed, up to whitespace and case, by `inward` or
`outward`. -/
def parseBracketContent (content : List Char) : Option (String × Option Direction) :=
  match splitAtChar '-' content with
  | none => bracketNoDash content
  | some (pre, post) => bracketArrow pre post

/-- Bracket filter continuation: hand the parsed bracket interior and the
text after `]` to the colon tail. -/
def bracketThenColon : Option (String × Option Direction) → List Char →
    Option (String × Option Direction × String)
  | none, _ => none
  | some (hint, dir), afterBr => (parseColonTail afterBr).map (fun inner => (hint, dir, inner))

/-- Bracket clause of the regex: the interior is delimited by the first
`]` (the hint character class excludes `]`), and a missing `]` fails. -/
def bracketClause : Option (List Char × List Char) → Option (String × Option Direction × String)
  | none => none
  | some (content, afterBr) => bracketThenColon (parseBracketContent content) afterBr

/-- Core of `parseTail` on the whitespace-stripped remainder after the
mode token: either a bracketed filter clause followed by the colon tail,
or the colon tail directly. -/
def parseTailCore : List Char → Option (String × Option Direction × String)
  | [] => none
  | c :: r2 =>
    if c = '[' then bracketClause (splitAtChar ']' r2)
    else (parseColonTail (c :: r2)).map (fun inner => ("", none, inner))

/-- Model of the part of the parse regex after the mode token: an
optional bracketed relationship filter followed by the colon tail.
`none` means the whole regex fails and `parseArg` falls back to
whole-string-as-inner-query. -/
def parseTail (rest : List Char) : Option (String × Option Direction × String) :=
  parseTailCore (dropWs rest)

/-- Build the parse result once the regex has matched: a link filter is
only attached for mode `linked` when the (trimmed) hint or a direction
is present; on `none` (regex tail failed) fall back to the whole trimmed
string as inner query with default mode `linked`. -/
def parseArgTail (mode : Mode) : Option (String × Option Direction × String) → String → Parsed
  | none, s => ⟨Mode.linked, none, s⟩
  | some (hint, dir, inner), _ =>
    ⟨mode,
      if mode = Mode.linked ∧ (hint ≠ "" ∨ dir.isSome) then some ⟨hint, dir⟩ else none,
      inner⟩

/-- Dispatch on the mode-token match: without a leading mode token the
whole trimmed string is the inner query with default mode `linked`. -/
def parseArgMode : Option (Mode × List Char) → String → Parsed
  | none, s => ⟨Mode.linked, none, s⟩
  | some (mode, rest), s => parseArgTail mode (parseTail rest) s

/-- Argument parser `parseArg(raw)` from the source: trim the raw
argument, try the `mode [linkType [-> direction]] : innerJql` pattern,
and fall back to the whole trimmed string as inner query with default
mode `linked`. -/
def parseArg (raw : Option String) : Parsed :=
  let s := jsTrim (optStr raw)
  if s = "" then ⟨Mode.linked, none, ""⟩
  else parseArgMode (findMode s.data) s

/-- Canonical lowercase spelling of a direction, as the parse regex
captures it. -/
def dirWord : Direction → String
  | Direction.inward => "inward"
  | Direction.outward => "outward"

/-! ### Seed item data model and relationship extractors -/

/-- Link type descriptor `{name, inward, outward}` of an issue link. -/
structure LinkType where
  name : Option String
  inward : Option String
  outward : Option String
deriving DecidableEq

/-- Reference to the issue on one side of a link (only its key is read). -/
structure IssueRef where
  key : Option String
deriving DecidableEq

/-- One entry of `fields.issuelinks`. -/
structure IssueLink where
  type : Option LinkType
  outwardIssue : Option IssueRef
  inwardIssue : Option IssueRef
deriving DecidableEq

/-- Issue-type descriptor `{hierarchyLevel, name}` of a parent. -/
structure IssueTypeInfo where
  hierarchyLevel : Option Int
  name : Option String
deriving DecidableEq

/-- Parent reference: its key and the issue-type descriptor reached via
`parent.fields.issuetype` (the intermediate `fields` object is collapsed:
absence at either level is `none`, which is all the source can observe
through `p?.fields?.issuetype`). -/
structure ParentRef where
  key : Option String
  issuetype : Option IssueTypeInfo
deriving DecidableEq

/-- One entry of `fields.subtasks`. -/
structure SubtaskRef where
  key : Option String
deriving DecidableEq

/-- The `fields` object of a seed issue, restricted to the four fields the
extractors read. -/
structure IssueFields where
  issuelinks : Option (List IssueLink)
  parent : Option ParentRef
  subtasks : Option (List SubtaskRef)
deriving DecidableEq

/-- A seed issue; `fields = none` models a missing or unexpanded `fields`
object (`i?.fields`). -/
structure Issue where
  fields : Option IssueFields
deriving DecidableEq

/-- JS-truthy key of an optional issue reference (`l?.outwardIssue?.key`):
empty when the reference or its key is absent. -/
def refKey (r : Option IssueRef) : String := optStr (r.bind IssueRef.key)

/-- Model of `i?.fields?.issuelinks || []`. -/
def linksOf (i : Issue) : List IssueLink := (i.fields.bind IssueFields.issuelinks).getD []

/-- Model of `i?.fields?.parent`. -/
def parentOf (i : Issue) : Option ParentRef := i.fields.bind IssueFields.parent

/-- Model of `i?.fields?.subtasks || []`. -/
def subsOf (i : Issue) : List SubtaskRef := (i.fields.bind IssueFields.subtasks).getD []

/-- Insertion as in `new Set()`: append the key unless already present, so the
result keeps first-insertion order and never holds duplicates. -/
def insertKey (l : List String) (k : String) : List String :=
  if k ∈ l then l else l ++ [k]

/-- Flag `needFilter`: a filter object is present and has a truthy `typeHint`
or a direction (`!!linkFilter && (linkFilter.typeHint || linkFilter.direction)`). -/
def needFilterB : Option LinkFilter → Bool
  | none => false
  | some lf => (!(lf.typeHint == "")) || lf.direction.isSome

/-- The normalised hint `(linkFilter?.typeHint || '').toLowerCase().trim()`. -/
def hintOf (f : Option LinkFilter) : String :=
  jsTrim (lowerStr (optStr (f.map LinkFilter.typeHint)))

/-- Flag `wantInward`: `linkFilter?.direction === 'inward'`. -/
def wantIn (f : Option LinkFilter) : Bool :=
  (f.bind LinkFilter.direction) == some Direction.inward

/-- Flag `wantOutward`: `linkFilter?.direction === 'outward'`. -/
def wantOut (f : Option LinkFilter) : Bool :=
  (f.bind LinkFilter.direction) == some Direction.outward

/-- Normalised link-type display name
`String(typeObj.name || '').toLowerCase().trim()` with `l?.type || {}`. -/
def tname (l : IssueLink) : String := jsTrim (lowerStr (optStr (l.type.bind LinkType.name)))

/-- Normalised inward label of the link type. -/
def tinw (l : IssueLink) : String := jsTrim (lowerStr (optStr (l.type.bind LinkType.inward)))

/-- Normalised outward label of the link type. -/
def toutw (l : IssueLink) : String := jsTrim (lowerStr (optStr (l.type.bind LinkType.outward)))

/-- Does a link pass the filter?  `pass` stays `true` unless the filter is
needed, its normalised typeHint is nonempty, and the hint matches none of
the three display strings. -/
def linkPassB (f : Option LinkFilter) (l : IssueLink) : Bool :=
  if needFilterB f ∧ ¬(hintOf f = "") then
    (tname l == hintOf f) || (tinw l == hintOf f) || (toutw l == hintOf f)
  else true

/-- The keys a single link contributes, in source order (outward first),
respecting the direction restriction: each side is added when its key is
truthy and `!needFilter || want<side> || (!wantInward && !wantOutward)`. -/
def linkKeys (f : Option LinkFilter) (l : IssueLink) : List String :=
  if linkPassB f l then
    (if ¬(refKey l.outwardIssue = "") ∧
        (needFilterB f = false ∨ wantOut f = true ∨ (wantIn f = false ∧ wantOut f = false)) then
      [refKey l.outwardIssue] else []) ++
    (if ¬(refKey l.inwardIssue = "") ∧
        (needFilterB f = false ∨ wantIn f = true ∨ (wantIn f = false ∧ wantOut f = false)) then
      [refKey l.inwardIssue] else [])
  else []

/-- Extractor `extractLinkedIssueKeys(issues, linkFilter)`: walk every link of every
issue, inserting the passing keys into the result set in order. -/
def extractLinkedIssueKeys (issues : List Issue) (linkFilter : Option LinkFilter) : List String :=
  issues.foldl (fun out i =>
    (linksOf i).foldl (fun out2 l => (linkKeys linkFilter l).foldl insertKey out2) out) []

/-- Keys contributed by a parent reference in `extractParentKeys`
(`if (p?.key) out.add(p.key)`). -/
def parentKeyOf : Option ParentRef → List String
  | none => []
  | some p => if optStr p.key = "" then [] else [optStr p.key]

/-- Keys contributed by one issue in `extractParentKeys`. -/
def parentKeyList (i : Issue) : List String := parentKeyOf (parentOf i)

/-- Extractor `extractParentKeys(issues)`: every truthy parent key. -/
def extractParentKeys (issues : List Issue) : List String :=
  issues.foldl (fun out i => (parentKeyList i).foldl insertKey out) []

/-- Epic test on the parent issue-type descriptor:
`t?.hierarchyLevel === 1 || String(t?.name || '').toLowerCase() === 'epic' || !t`. -/
def epicTypeOk : Option IssueTypeInfo → Bool
  | none => true
  | some t => (t.hierarchyLevel == some (1 : Int)) || (lowerStr (optStr t.name) == "epic")

/-- Keys contributed by a parent reference in `extractParentEpicKeys`: a
truthy parent key whose issue type passes the epic test. -/
def epicKeyOf : Option ParentRef → List String
  | none => []
  | some p =>
    if optStr p.key = "" then []
    else if epicTypeOk p.issuetype then [optStr p.key] else []

/-- Keys contributed by one issue in `extractParentEpicKeys`. -/
def epicKeyList (i : Issue) : List String := epicKeyOf (parentOf i)

/-- Extractor `extractParentEpicKeys(issues)`. -/
def extractParentEpicKeys (issues : List Issue) : List String :=
  issues.foldl (fun out i => (epicKeyList i).foldl insertKey out) []

/-- Keys contributed by one issue in `extractSubtaskKeys`
(`if (s?.key) out.add(s.key)` over `fields.subtasks || []`). -/
def subtaskKeyList (i : Issue) : List String :=
  (subsOf i).flatMap (fun st => if optStr st.key = "" then [] else [optStr st.key])

/-- Extractor `extractSubtaskKeys(issues)`. -/
def extractSubtaskKeys (issues : List Issue) : List String :=
  issues.foldl (fun out i => (subtaskKeyList i).foldl insertKey out) []

/-! ### Seed retrieval: cursor-based protocol with offset-based fallback -/

/-- Response of one POST to the cursor-based (enhanced JQL) endpoint. -/
inductive EnhancedResp where
  | notFound
  | httpError (status : Nat) (text : String)
  | ok (issues : Option (List Issue)) (nextPageToken : Option String) (isLast : Option Bool)
deriving DecidableEq

/-- Response of one GET to the offset-based legacy endpoint. -/
inductive LegacyResp where
  | httpError (status : Nat) (text : String)
  | ok (issues : Option (List Issue)) (maxResults : Option Nat) (total : Option Nat)
deriving DecidableEq

/-- The distinguished not-found marker thrown on a 404 from the cursor
endpoint (`ENHANCED_JQL_NOT_AVAILABLE`). -/
def markerStr : String := "ENHANCED_JQL_NOT_AVAILABLE"

/-- Error message of a non-404 failure of the enhanced search
(`Enhanced search failed: ${res.status} ${t}`). -/
def enhFailMsg (status : Nat) (text : String) : String :=
  "Enhanced search failed: " ++ Nat.repr status ++ " " ++ text

/-- Error message of a failure of the legacy search. -/
def legFailMsg (status : Nat) (text : String) : String :=
  "Legacy search failed: " ++ Nat.repr status ++ " " ++ text

/-- Is the first char list a prefix of the second? -/
def listStartsWith : List Char → List Char → Bool
  | [], _ => true
  | _ :: _, [] => false
  | a :: as, b :: bs => (a == b) && listStartsWith as bs

/-- Does the haystack contain the needle as a contiguous run? -/
def containsSub (needle : List Char) : List Char → Bool
  | [] => needle.isEmpty
  | c :: rest => listStartsWith needle (c :: rest) || containsSub needle rest

/-- Model of `String(e.message).includes(needle)`. -/
def strContains (hay needle : String) : Bool := containsSub needle.data hay.data

/-- Page loop of the cursor-based protocol: up to `fuel` requests (the
page cap), indexed by request ordinal.  It accumulates `data.issues || []`,
stops when `!data.nextPageToken || data.isLast === true`, and otherwise
continues.  A 404 throws the marker; any other non-ok response throws the
composite failure message.  Returns the issues accumulated so far, the
message of the throw that ended the loop (if any), and the number of
requests made. -/
def enhancedLoop (enh : Nat → EnhancedResp) :
    Nat → Nat → List Issue → List Issue × Option String × Nat
  | 0, _, acc => (acc, none, 0)
  | fuel + 1, idx, acc =>
    match enh idx with
    | EnhancedResp.notFound => (acc, some markerStr, 1)
    | EnhancedResp.httpError st t => (acc, some (enhFailMsg st t), 1)
    | EnhancedResp.ok iss tok isLast =>
      let acc2 := acc ++ iss.getD []
      if (tok.getD "") = "" ∨ isLast = some true then (acc2, none, 1)
      else
        let r := enhancedLoop enh fuel (idx + 1) acc2
        (r.1, r.2.1, r.2.2 + 1)

/-- The offset increment the legacy loop derives from one ok response:
`data.maxResults || pageSize` (for an error response the loop stops, so
the value is irrelevant; `pageSize` is used as a placeholder). -/
def legacyInc (pageSize : Nat) : LegacyResp → Nat
  | LegacyResp.httpError _ _ => pageSize
  | LegacyResp.ok _ mr _ => if mr.getD 0 = 0 then pageSize else mr.getD 0

/-- Page loop of the offset-based legacy protocol: up to `fuel` requests,
indexed by request ordinal, threading the numeric offset (`startAt`).
The offset grows by `data.maxResults || pageSize` (see `legacyInc`) and
the loop stops when the new offset reaches `data.total || 0`; a non-ok
response throws.  Returns the result (accumulated issues or the thrown
error) and the trace of offsets at which the requests were issued. -/
def legacyLoop (leg : Nat → LegacyResp) (pageSize : Nat) :
    Nat → Nat → Nat → List Issue → Except String (List Issue) × List Nat
  | 0, _, _, acc => (Except.ok acc, [])
  | fuel + 1, idx, startAt, acc =>
    match leg idx with
    | LegacyResp.httpError st t => (Except.error (legFailMsg st t), [startAt])
    | LegacyResp.ok iss mr total =>
      let acc2 := acc ++ iss.getD []
      let s2 := startAt + legacyInc pageSize (LegacyResp.ok iss mr total)
      if total.getD 0 ≤ s2 then (Except.ok acc2, [startAt])
      else
        let r := legacyLoop leg pageSize fuel (idx + 1) s2 acc2
        (r.1, startAt :: r.2)

/-- Retriever `searchSeedIssues` from the source: run the cursor-based loop; on an
error whose message contains the not-found marker, continue with the
legacy loop — the `issues` accumulator is shared between the two loops,
so issues fetched by completed cursor pages are retained — and otherwise
re-throw the error.  Also returns the total number of requests issued to
either protocol. -/
def searchSeedIssues (enh : Nat → EnhancedResp) (leg : Nat → LegacyResp)
    (pageCap pageSize : Nat) : Except String (List Issue) × Nat :=
  let r := enhancedLoop enh pageCap 0 []
  match r.2.1 with
  | none => (Except.ok r.1, r.2.2)
  | some msg =>
    if strContains msg markerStr then
      let r2 := legacyLoop leg pageSize pageCap 0 0 r.1
      (r2.1, r.2.2 + r2.2.length)
    else (Except.error msg, r.2.2)

/-- Offset (relative to a base of 0) of the `n`-th legacy request when
requests are numbered from `idx`: the sum of the increments derived from
the preceding responses. -/
def offsFrom (leg : Nat → LegacyResp) (pageSize idx : Nat) : Nat → Nat
  | 0 => 0
  | n + 1 => offsFrom leg pageSize idx n + legacyInc pageSize (leg (idx + n))

/-- Concrete legacy oracle for witnesses: every page is ok with no
reported page size and total 150. -/
def wLeg9 : Nat → LegacyResp := fun _ => LegacyResp.ok (some []) none (some 150)

/-- Concrete legacy oracle whose reported page size (150) exceeds the
configured one (100). -/
def cexLeg9 : Nat → LegacyResp := fun _ => LegacyResp.ok (some []) (some 150) (some 10000)

/-- Distinguishable concrete issues for fallback checks. -/
def cexIssueA : Issue :=
  Issue.mk (some (IssueFields.mk none (some (ParentRef.mk (some "A-1") none)) none))

/-- A second distinguishable concrete issue. -/
def cexIssueB : Issue :=
  Issue.mk (some (IssueFields.mk none (some (ParentRef.mk (some "B-1") none)) none))

/-- Enhanced oracle that serves one successful page (with a continuation
token) and reports not-found on the second request. -/
def cexEnh6 : Nat → EnhancedResp := fun n =>
  if n = 0 then EnhancedResp.ok (some [cexIssueA]) (some "t") none else EnhancedResp.notFound

/-- Legacy oracle returning a single page with one issue. -/
def cexLeg6 : Nat → LegacyResp := fun _ => LegacyResp.ok (some [cexIssueB]) none (some 1)

/-- Enhanced oracle failing with a 500 whose error body embeds the
not-found marker text. -/
def cexEnh6b : Nat → EnhancedResp := fun _ => EnhancedResp.httpError 500 markerStr

/-! ### Resolver entry point -/

/-- One clause of the invocation: the comparison operator and the
arguments array, each possibly absent. -/
structure Clause where
  operator : Option String
  arguments : Option (List String)
deriving DecidableEq

/-- The invocation object `args` (itself possibly absent). -/
structure Invocation where
  clause : Option Clause
deriving DecidableEq

/-- Model of `clause?.operator || 'in'`. -/
def opOf (args : Option Invocation) : String :=
  match (args.bind Invocation.clause).bind Clause.operator with
  | none => "in"
  | some o => if o = "" then "in" else o

/-- Model of `const [arg0] = clause?.arguments || []`. -/
def arg0Of (args : Option Invocation) : Option String :=
  (((args.bind Invocation.clause).bind Clause.arguments).getD []).head?

/-- The result-size cap applied before serialization:
`new Set(Array.from(keys).slice(0, 1000))`. -/
def capKeys (keys : List String) : List String :=
  (keys.take 1000).foldl insertKey []

/-- Key extraction dispatch on the parsed mode (the `switch` of the
entry point; `linked` is also the default arm). -/
def keysFor (p : Parsed) (seedIssues : List Issue) : List String :=
  match p.mode with
  | Mode.parent => extractParentKeys seedIssues
  | Mode.epicOf => extractParentEpicKeys seedIssues
  | Mode.subtask => extractSubtaskKeys seedIssues
  | Mode.linked => extractLinkedIssueKeys seedIssues p.linkFilter

/-- The returned object `{ jql }`. -/
structure Resolved where
  jql : String
deriving DecidableEq

/-- The entry point `issuesWithText`: read operator and first argument
with their defaults, parse, short-circuit to the nothing-matches
sentinel on a blank inner query, retrieve seed issues (4 pages of 100),
extract keys per mode, cap to 1000, and build the fragment, negating
when the operator is not `in`; a retrieval failure is caught and also
yields the sentinel.  The second component counts the search requests
issued. -/
def issuesWithText (enh : Nat → EnhancedResp) (leg : Nat → LegacyResp)
    (args : Option Invocation) : Resolved × Nat :=
  let p := parseArg (arg0Of args)
  if p.innerJql = "" then (⟨SAFE_NO_MATCH⟩, 0)
  else
    let sr := searchSeedIssues enh leg 4 100
    match sr.1 with
    | Except.error _ => (⟨SAFE_NO_MATCH⟩, sr.2)
    | Except.ok seedIssues =>
      let limitedKeys := capKeys (keysFor p seedIssues)
      let negate := !(opOf args == "in")
      (⟨buildIssueKeySetJql limitedKeys negate⟩, sr.2)

/-- Enhanced oracle serving one page holding one issue with one outward
link, for entry-point checks. -/
def cexEnh10 : Nat → EnhancedResp := fun _ =>
  EnhancedResp.ok (some [Issue.mk (some (IssueFields.mk
    (some [IssueLink.mk none (some (IssueRef.mk (some "X-1"))) none]) none none))]) none none

/-- An invocation whose clause has a real argument but no operator. -/
def cexInv10 : Invocation := ⟨some ⟨none, some ["linked: project = A"]⟩⟩

/-- A 1001-element duplicate-free key list for the capping witness. -/
def bigKeys : List String :=
  (List.range 1001).map (fun n => String.mk (List.replicate n 'a'))

theorem bslash_ne_squote : bslash ≠ squote := by decide

theorem escapeChars_ne_squote_cons (l : List Char) (t : List Char) :
    escapeChars l ≠ squote :: t := by
  cases l with
  | nil => simp [escapeChars]
  | cons c rest =>
    simp only [escapeChars]
    split
    · intro h
      injection h with h1 _
      exact bslash_ne_squote h1
    · next hc =>
      intro h
      injection h with h1 _
      exact hc h1

theorem noBareQuote_escapeChars (l : List Char) : noBareQuote (escapeChars l) = true := by
  induction l with
  | nil => rfl
  | cons c rest ih =>
    by_cases hc : c = squote
    · subst hc
      simp only [escapeChars, if_pos rfl, noBareQuote, if_neg bslash_ne_squote,
        if_pos (And.intro rfl rfl)]
      exact ih
    · simp only [escapeChars, if_neg hc]
      cases hrest : escapeChars rest with
      | nil => simp [noBareQuote, hc]
      | cons c2 er2 =>
        have hc2 : ¬ (c2 = squote) := fun h =>
          escapeChars_ne_squote_cons rest er2 (by rw [hrest, h])
        simp only [noBareQuote, if_neg hc]
        rw [if_neg (fun h => hc2 h.2), ← hrest]
        exact ih

theorem unescapeChars_escapeChars (l : List Char) : unescapeChars (escapeChars l) = l := by
  induction l with
  | nil => rfl
  | cons c rest ih =>
    by_cases hc : c = squote
    · subst hc
      simp only [escapeChars, if_pos rfl, unescapeChars]
      simp [ih]
    · simp only [escapeChars, if_neg hc]
      cases hrest : escapeChars rest with
      | nil =>
        have hnil : rest = [] := by
          cases rest with
          | nil => rfl
          | cons d ds =>
            simp only [escapeChars] at hrest
            split at hrest <;> simp_all
        subst hnil
        rfl
      | cons c2 er2 =>
        have hc2 : ¬ (c2 = squote) := fun h =>
          escapeChars_ne_squote_cons rest er2 (by rw [hrest, h])
        simp only [unescapeChars]
        rw [if_neg (fun h => hc2 h.2), ← hrest, ih]

theorem stringDataInj {a b : String} (h : a.data = b.data) : a = b := by
  cases a; cases b; exact congrArg String.mk h

theorem escapeKey_injective : Function.Injective escapeKey := by
  intro a b h
  have hd : escapeChars a.data = escapeChars b.data := congrArg String.data h
  have h2 : unescapeChars (escapeChars a.data) = unescapeChars (escapeChars b.data) := by rw [hd]
  rw [unescapeChars_escapeChars, unescapeChars_escapeChars] at h2
  exact stringDataInj h2

theorem quoteKey_injective : Function.Injective quoteKey := by
  intro a b h
  have hd : (quoteKey a).data = (quoteKey b).data := congrArg String.data h
  simp only [quoteKey, squoteS, String.data_append] at hd
  rw [List.append_assoc, List.append_assoc] at hd
  have h2 : (escapeKey a).data ++ [squote] = (escapeKey b).data ++ [squote] :=
    List.append_cancel_left hd
  have h3 : (escapeKey a).data = (escapeKey b).data := List.append_cancel_right h2
  exact escapeKey_injective (stringDataInj h3)

/-- Claim C2: for every key set and negate flag the fragment builder
returns the nothing-matches sentinel on an empty set without negation,
the everything-matches sentinel on an empty set with negation, and
otherwise an `issuekey in (...)` / `issuekey not in (...)` clause listing
each key once, single-quoted, with embedded single quotes escaped (no
bare quote remains, and escaping is information-preserving). -/
theorem buildIssueKeySetJql_spec (keys : List String) (negate : Bool) :
    (keys = [] →
      buildIssueKeySetJql keys negate = (if negate then NO_MATCH_NEG else SAFE_NO_MATCH))
    ∧ (keys ≠ [] →
        (buildIssueKeySetJql keys negate =
          "issuekey " ++ (if negate then "not in" else "in") ++ " (" ++
            joinWith ", " (keys.map quoteKey) ++ ")")
        ∧ (keys.map quoteKey).length = keys.length
        ∧ (keys.Nodup → (keys.map quoteKey).Nodup)
        ∧ ∀ kk ∈ keys,
            quoteKey kk = squoteS ++ escapeKey kk ++ squoteS
            ∧ noBareQuote (escapeKey kk).data = true
            ∧ unescapeChars (escapeKey kk).data = kk.data) := by
  constructor
  · intro h
    subst h
    rfl
  · intro h
    cases keys with
    | nil => exact absurd rfl h
    | cons a as =>
      refine ⟨rfl, by simp, fun hn => hn.map quoteKey_injective, ?_⟩
      intro kk _
      exact ⟨rfl, noBareQuote_escapeChars _, unescapeChars_escapeChars _⟩

/-- Witness for claim C2 at concrete inputs, including a key with an
embedded single quote. -/
theorem buildIssueKeySetJql_spec_witness :
    (buildIssueKeySetJql [] false = (if false then NO_MATCH_NEG else SAFE_NO_MATCH))
    ∧ (buildIssueKeySetJql [] true = (if true then NO_MATCH_NEG else SAFE_NO_MATCH))
    ∧ (buildIssueKeySetJql ["AB-1", "A" ++ squoteS ++ "B"] true =
        "issuekey " ++ (if true then "not in" else "in") ++ " (" ++
          joinWith ", " ((["AB-1", "A" ++ squoteS ++ "B"]).map quoteKey) ++ ")")
    ∧ ((["AB-1", "A" ++ squoteS ++ "B"]).map quoteKey).Nodup :=
  ⟨(buildIssueKeySetJql_spec [] false).1 rfl,
   (buildIssueKeySetJql_spec [] true).1 rfl,
   ((buildIssueKeySetJql_spec ["AB-1", "A" ++ squoteS ++ "B"] true).2 (by decide)).1,
   ((buildIssueKeySetJql_spec ["AB-1", "A" ++ squoteS ++ "B"] true).2 (by decide)).2.2.1
     (by decide)⟩

/-! ### Symbolic facts about the parser -/

theorem dropWs_cons_not_ws {c : Char} (h : isWs c = false) (l : List Char) :
    dropWs (c :: l) = c :: l := by
  simp [dropWs, List.dropWhile_cons, h]

theorem head_not_ws_of_dropWs_fix {c : Char} {t : List Char}
    (h : dropWs (c :: t) = c :: t) : isWs c = false := by
  by_contra hc
  rw [Bool.not_eq_false] at hc
  rw [dropWs, List.dropWhile_cons, if_pos hc] at h
  have hle : (List.dropWhile isWs t).length ≤ t.length :=
    (List.dropWhile_sublist (p := isWs) (l := t)).length_le
  rw [h] at hle
  simp at hle

theorem dropWs_append_stable {A B : List Char} (h : dropWs A = A) (hn : A ≠ []) :
    dropWs (A ++ B) = A ++ B := by
  cases A with
  | nil => exact absurd rfl hn
  | cons c t =>
    have hc := head_not_ws_of_dropWs_fix h
    simp only [List.cons_append]
    exact dropWs_cons_not_ws hc _

theorem trimChars_eq_self {l : List Char} (h1 : dropWs l = l)
    (h2 : dropWs l.reverse = l.reverse) : trimChars l = l := by
  rw [trimChars, h1, h2, List.reverse_reverse]

theorem jsTrim_eq_self {s : String} (h1 : dropWs s.data = s.data)
    (h2 : dropWs s.data.reverse = s.data.reverse) : jsTrim s = s := by
  rw [jsTrim, trimChars_eq_self h1 h2]

theorem charsLowerMatch_append {tok A : List Char} (B : List Char)
    (h : tok.length ≤ A.length) :
    charsLowerMatch tok (A ++ B) = charsLowerMatch tok A := by
  induction tok generalizing A with
  | nil => rfl
  | cons t ts ih =>
    cases A with
    | nil => simp at h
    | cons a as =>
      simp only [List.cons_append, charsLowerMatch, List.append_eq]
      rw [ih (by simpa using h)]

theorem splitAtChar_not_mem {t : Char} {l : List Char} (h : t ∉ l) :
    splitAtChar t l = none := by
  induction l with
  | nil => rfl
  | cons c rest ih =>
    have hct : ¬ (c = t) := fun hh => h (hh ▸ List.mem_cons_self c rest)
    simp only [splitAtChar, if_neg hct]
    rw [ih (fun hm => h (List.mem_cons_of_mem c hm))]
    rfl

theorem splitAtChar_append {t : Char} {A : List Char} (B : List Char) (h : t ∉ A) :
    splitAtChar t (A ++ t :: B) = some (A, B) := by
  induction A with
  | nil => simp [splitAtChar]
  | cons c rest ih =>
    have hct : ¬ (c = t) := fun hh => h (hh ▸ List.mem_cons_self c rest)
    simp only [List.cons_append, splitAtChar, if_neg hct, List.append_eq]
    rw [ih (fun hm => h (List.mem_cons_of_mem c hm))]
    rfl

theorem parseBracketContent_noDash {C : List Char} (hd : '-' ∉ C) (hn : C ≠ []) :
    parseBracketContent C = some (jsTrim (String.mk C), none) := by
  cases C with
  | nil => exact absurd rfl hn
  | cons a as =>
    unfold parseBracketContent
    rw [splitAtChar_not_mem hd]
    rfl

theorem parseBracketContent_arrow {pre after : List Char} {d : Direction}
    (hd : '-' ∉ pre) (hn : pre ≠ [])
    (hdw : lowerStr (jsTrim (String.mk after)) = dirWord d) :
    parseBracketContent (pre ++ '-' :: '>' :: after) = some (jsTrim (String.mk pre), some d) := by
  cases pre with
  | nil => exact absurd rfl hn
  | cons p ps =>
    unfold parseBracketContent
    rw [splitAtChar_append _ hd]
    show bracketDir (p :: ps) after = _
    simp only [bracketDir]
    rw [hdw]
    cases d with
    | inward => simp [dirWord]
    | outward => simp [dirWord]

theorem parseBracketContent_leadingDash (rest : List Char) :
    parseBracketContent ('-' :: rest) = none := by
  unfold parseBracketContent
  rw [show splitAtChar '-' ('-' :: rest) = some ([], rest) from by simp [splitAtChar]]
  cases rest <;> rfl

/-- Core symbolic evaluation of `parseArg` on arguments of the shape
`linked[<content>]: <query>`: the parse succeeds exactly when the bracket
content parses, and otherwise falls back to the whole trimmed string. -/
theorem parseArg_linkedBracket (C : List Char) (q : String)
    (hC : ']' ∉ C)
    (hq1 : dropWs q.data = q.data) (hq2 : dropWs q.data.reverse = q.data.reverse)
    (hqn : q.data ≠ [])
    (hqnl : q.data.any (fun ch => (ch == '\n') || (ch == '\r')) = false) :
    parseArg (some (String.mk (['l', 'i', 'n', 'k', 'e', 'd', '['] ++
        (C ++ (']' :: ':' :: ' ' :: q.data))))) =
      (match parseBracketContent C with
       | some (hint0, dir0) =>
          ⟨Mode.linked, if hint0 ≠ "" ∨ dir0.isSome then some ⟨hint0, dir0⟩ else none, q⟩
       | none =>
          ⟨Mode.linked, none, String.mk (['l', 'i', 'n', 'k', 'e', 'd', '['] ++
            (C ++ (']' :: ':' :: ' ' :: q.data)))⟩) := by
  set S : String := String.mk (['l', 'i', 'n', 'k', 'e', 'd', '['] ++
      (C ++ (']' :: ':' :: ' ' :: q.data))) with hS
  have hSdata : S.data = ['l', 'i', 'n', 'k', 'e', 'd', '['] ++
      (C ++ (']' :: ':' :: ' ' :: q.data)) := rfl
  have hqrev : ∀ R : List Char, dropWs (q.data.reverse ++ R) = q.data.reverse ++ R := by
    intro R
    exact dropWs_append_stable hq2 (by simpa using hqn)
  have htrim : jsTrim S = S := by
    apply jsTrim_eq_self
    · rw [hSdata]
      exact dropWs_cons_not_ws (by decide) _
    · have hrev : S.data.reverse =
          q.data.reverse ++ ((' ' :: ':' :: ']' :: C.reverse) ++ ['[', 'd', 'e', 'k', 'n', 'i', 'l']) := by
        rw [hSdata]
        simp [List.reverse_append, List.reverse_cons, List.append_assoc]
      rw [hrev]
      exact hqrev _
  have hSne : ¬ (S = "") := by
    intro h
    have hh := congrArg String.data h
    rw [hSdata] at hh
    simp at hh
  have hpfx : ∀ tok : String, tok.data.length ≤ 7 →
      charsLowerMatch tok.data (['l', 'i', 'n', 'k', 'e', 'd', '['] ++
        (C ++ (']' :: ':' :: ' ' :: q.data))) =
        charsLowerMatch tok.data ['l', 'i', 'n', 'k', 'e', 'd', '['] := by
    intro tok h
    exact charsLowerMatch_append _ (by simpa using h)
  have hfm : findMode S.data = some (Mode.linked, '[' :: (C ++ (']' :: ':' :: ' ' :: q.data))) := by
    rw [hSdata]
    simp only [findMode, findModeAux, modeTokens]
    rw [hpfx "parent" (by decide), hpfx "epic-of" (by decide), hpfx "linked" (by decide)]
    rw [if_neg (by decide), if_neg (by decide), if_pos (by decide)]
    rfl
  have hct : parseColonTail (':' :: ' ' :: q.data) = some q := by
    have hcore : dropWs (' ' :: q.data) = q.data := by
      rw [dropWs, List.dropWhile_cons, if_pos (by decide)]
      exact hq1
    have hqe : q.data.isEmpty = false := by
      cases hqd : q.data with
      | nil => exact absurd hqd hqn
      | cons a as => rfl
    simp only [parseColonTail]
    rw [dropWs_cons_not_ws (by decide)]
    show colonBody (dropWs (' ' :: q.data)) = some q
    rw [hcore]
    unfold colonBody
    rw [hqe, hqnl]
    simp only [Bool.false_eq_true, if_false]
    show some (jsTrim q) = some q
    rw [jsTrim_eq_self hq1 hq2]
  have hpt : parseTail ('[' :: (C ++ (']' :: ':' :: ' ' :: q.data))) =
      bracketThenColon (parseBracketContent C) (':' :: ' ' :: q.data) := by
    unfold parseTail
    rw [dropWs_cons_not_ws (by decide)]
    show parseTailCore ('[' :: (C ++ (']' :: ':' :: ' ' :: q.data))) = _
    simp only [parseTailCore]
    rw [if_pos trivial, splitAtChar_append _ hC]
    rfl
  show parseArg (some S) = _
  simp only [parseArg]
  have hopt : optStr (some S) = S := rfl
  rw [hopt, htrim, if_neg hSne, hfm]
  show parseArgTail Mode.linked (parseTail ('[' :: (C ++ (']' :: ':' :: ' ' :: q.data)))) S = _
  rw [hpt]
  cases hpb : parseBracketContent C with
  | none => rfl
  | some pr =>
    obtain ⟨hint0, dir0⟩ := pr
    show parseArgTail Mode.linked
        ((parseColonTail (':' :: ' ' :: q.data)).map (fun inner => (hint0, dir0, inner))) S = _
    rw [hct]
    show (⟨Mode.linked,
        if Mode.linked = Mode.linked ∧ (hint0 ≠ "" ∨ dir0.isSome) then some ⟨hint0, dir0⟩
        else none, q⟩ : Parsed) = _
    simp

/-- Claim C4 (counterexample): the parser does not accept the
direction-only filter form when the arrow directly follows `[`: on
`linked[->outward]: p = A` the whole regex fails (the hint character
class excludes a leading dash), so the parser falls back to
whole-string-as-inner-query with no link filter, instead of producing a
filter with direction `outward` and inner query `p = A`. -/
theorem parseArg_filter_forms_cex :
    parseArg (some "linked[->outward]: p = A") =
      ⟨Mode.linked, none, "linked[->outward]: p = A"⟩
    ∧ (parseArg (some "linked[->outward]: p = A")).linkFilter = none
    ∧ (parseArg (some "linked[->outward]: p = A")).innerJql ≠ "p = A" := by
  refine ⟨by decide, by decide, by decide⟩

/-- Claim C4 (amended): for the `linked` mode the parser accepts
`[ <typeHint> ]` and `[ <typeHint> -> <direction> ]` with direction in
`{inward, outward}` up to case and whitespace, where the typeHint is free
text containing neither `]` nor `-`; a parsed filter carries the trimmed
typeHint and the validated lowercase direction.  The direction-only form
is accepted only when at least one non-`]`, non-`-` character (such as a
space) stands between `[` and `->` (the typeHint then trims to empty);
with the arrow directly after `[` the regex fails and the parser falls
back to whole-string-as-inner-query. -/
theorem parseArg_filter_forms (hint dstr q : String) (d : Direction)
    (hq1 : dropWs q.data = q.data) (hq2 : dropWs q.data.reverse = q.data.reverse)
    (hqn : q.data ≠ [])
    (hqnl : q.data.any (fun ch => (ch == '\n') || (ch == '\r')) = false)
    (hhn : hint.data ≠ []) (hh1 : ']' ∉ hint.data) (hh2 : '-' ∉ hint.data)
    (hd1 : ']' ∉ dstr.data)
    (hdw : lowerStr (jsTrim dstr) = dirWord d) :
    (jsTrim hint ≠ "" →
      parseArg (some ("linked[" ++ hint ++ "]: " ++ q)) =
        ⟨Mode.linked, some ⟨jsTrim hint, none⟩, q⟩)
    ∧ parseArg (some ("linked[" ++ hint ++ "->" ++ dstr ++ "]: " ++ q)) =
        ⟨Mode.linked, some ⟨jsTrim hint, some d⟩, q⟩
    ∧ parseArg (some ("linked[ ->" ++ dstr ++ "]: " ++ q)) =
        ⟨Mode.linked, some ⟨"", some d⟩, q⟩
    ∧ parseArg (some ("linked[->" ++ dstr ++ "]: " ++ q)) =
        ⟨Mode.linked, none, "linked[->" ++ dstr ++ "]: " ++ q⟩ := by
  refine ⟨?_, ?_, ?_, ?_⟩
  · intro hne
    have e1 : ("linked[" ++ hint ++ "]: " ++ q) =
        String.mk (['l', 'i', 'n', 'k', 'e', 'd', '['] ++
          (hint.data ++ (']' :: ':' :: ' ' :: q.data))) :=
      stringDataInj (by simp only [String.data_append, List.append_assoc]; rfl)
    rw [e1, parseArg_linkedBracket hint.data q hh1 hq1 hq2 hqn hqnl,
      parseBracketContent_noDash hh2 hhn]
    show (⟨Mode.linked,
        if jsTrim hint ≠ "" ∨ (none : Option Direction).isSome then
          some ⟨jsTrim hint, none⟩ else none, q⟩ : Parsed) = _
    rw [if_pos (Or.inl hne)]
  · have hC2 : ']' ∉ hint.data ++ '-' :: '>' :: dstr.data := by
      intro hm
      rcases List.mem_append.mp hm with hm1 | hm2
      · exact hh1 hm1
      · rcases List.mem_cons.mp hm2 with hm3 | hm4
        · exact absurd hm3 (by decide)
        · rcases List.mem_cons.mp hm4 with hm5 | hm6
          · exact absurd hm5 (by decide)
          · exact hd1 hm6
    have e2 : ("linked[" ++ hint ++ "->" ++ dstr ++ "]: " ++ q) =
        String.mk (['l', 'i', 'n', 'k', 'e', 'd', '['] ++
          ((hint.data ++ '-' :: '>' :: dstr.data) ++ (']' :: ':' :: ' ' :: q.data))) :=
      stringDataInj (by simp only [String.data_append, List.append_assoc]; rfl)
    rw [e2, parseArg_linkedBracket _ q hC2 hq1 hq2 hqn hqnl,
      parseBracketContent_arrow hh2 hhn hdw]
    show (⟨Mode.linked,
        if jsTrim hint ≠ "" ∨ (some d).isSome then
          some ⟨jsTrim hint, some d⟩ else none, q⟩ : Parsed) = _
    rw [if_pos (Or.inr (show (some d).isSome = true from rfl))]
  · have hC3 : ']' ∉ (' ' :: '-' :: '>' :: dstr.data) := by
      intro hm
      rcases List.mem_cons.mp hm with hm1 | hm2
      · exact absurd hm1 (by decide)
      · rcases List.mem_cons.mp hm2 with hm3 | hm4
        · exact absurd hm3 (by decide)
        · rcases List.mem_cons.mp hm4 with hm5 | hm6
          · exact absurd hm5 (by decide)
          · exact hd1 hm6
    have hb3 : parseBracketContent (' ' :: '-' :: '>' :: dstr.data) = some ("", some d) := by
      have hx := @parseBracketContent_arrow [' '] dstr.data d
        (by decide) (by decide) hdw
      rw [show jsTrim (String.mk [' ']) = "" from by decide] at hx
      exact hx
    have e3 : ("linked[ ->" ++ dstr ++ "]: " ++ q) =
        String.mk (['l', 'i', 'n', 'k', 'e', 'd', '['] ++
          ((' ' :: '-' :: '>' :: dstr.data) ++ (']' :: ':' :: ' ' :: q.data))) :=
      stringDataInj (by simp only [String.data_append, List.append_assoc]; rfl)
    rw [e3, parseArg_linkedBracket _ q hC3 hq1 hq2 hqn hqnl, hb3]
    show (⟨Mode.linked,
        if ("" : String) ≠ "" ∨ (some d).isSome then
          some ⟨"", some d⟩ else none, q⟩ : Parsed) = _
    rw [if_pos (Or.inr (show (some d).isSome = true from rfl))]
  · have hC4 : ']' ∉ ('-' :: '>' :: dstr.data) := by
      intro hm
      rcases List.mem_cons.mp hm with hm1 | hm2
      · exact absurd hm1 (by decide)
      · rcases List.mem_cons.mp hm2 with hm3 | hm4
        · exact absurd hm3 (by decide)
        · exact hd1 hm4
    have e4 : ("linked[->" ++ dstr ++ "]: " ++ q) =
        String.mk (['l', 'i', 'n', 'k', 'e', 'd', '['] ++
          (('-' :: '>' :: dstr.data) ++ (']' :: ':' :: ' ' :: q.data))) :=
      stringDataInj (by simp only [String.data_append, List.append_assoc]; rfl)
    rw [e4, parseArg_linkedBracket _ q hC4 hq1 hq2 hqn hqnl,
      parseBracketContent_leadingDash ('>' :: dstr.data)]

/-- Witness for the amended claim C4 at concrete inputs. -/
theorem parseArg_filter_forms_witness :
    parseArg (some ("linked[" ++ "blocks" ++ "]: " ++ "project = ABC")) =
      ⟨Mode.linked, some ⟨jsTrim "blocks", none⟩, "project = ABC"⟩
    ∧ parseArg (some ("linked[" ++ "blocks" ++ "->" ++ "OUTWARD" ++ "]: " ++ "project = ABC")) =
      ⟨Mode.linked, some ⟨jsTrim "blocks", some Direction.outward⟩, "project = ABC"⟩
    ∧ parseArg (some ("linked[ ->" ++ "OUTWARD" ++ "]: " ++ "project = ABC")) =
      ⟨Mode.linked, some ⟨"", some Direction.outward⟩, "project = ABC"⟩
    ∧ parseArg (some ("linked[->" ++ "OUTWARD" ++ "]: " ++ "project = ABC")) =
      ⟨Mode.linked, none, "linked[->" ++ "OUTWARD" ++ "]: " ++ "project = ABC"⟩ := by
  have h := parseArg_filter_forms "blocks" "OUTWARD" "project = ABC" Direction.outward
    (by decide) (by decide) (by decide) (by decide) (by decide) (by decide) (by decide)
    (by decide) (by decide)
  exact ⟨h.1 (by decide), h.2.1, h.2.2.1, h.2.2.2⟩

/-! ### Membership and dedup facts for the set-insertion folds -/

theorem mem_insertKey {l : List String} {x k : String} :
    k ∈ insertKey l x ↔ k ∈ l ∨ k = x := by
  unfold insertKey
  split
  · next hx =>
    constructor
    · exact Or.inl
    · rintro (h | rfl)
      · exact h
      · exact hx
  · simp [List.mem_append]

theorem mem_foldl_insertKey (xs : List String) (acc : List String) (k : String) :
    k ∈ xs.foldl insertKey acc ↔ k ∈ acc ∨ k ∈ xs := by
  induction xs generalizing acc with
  | nil => simp
  | cons x xs ih =>
    rw [List.foldl_cons, ih, mem_insertKey, List.mem_cons]
    tauto

theorem mem_foldl_step {α : Type} (step : List String → α → List String) (P : α → Prop)
    (k : String) (hstep : ∀ acc x, k ∈ step acc x ↔ k ∈ acc ∨ P x)
    (xs : List α) (acc : List String) :
    k ∈ xs.foldl step acc ↔ k ∈ acc ∨ ∃ x ∈ xs, P x := by
  induction xs generalizing acc with
  | nil => simp
  | cons x xs ih =>
    rw [List.foldl_cons, ih, hstep]
    simp only [List.mem_cons]
    constructor
    · rintro ((h | h) | ⟨i, hi, hk⟩)
      · exact Or.inl h
      · exact Or.inr ⟨x, Or.inl rfl, h⟩
      · exact Or.inr ⟨i, Or.inr hi, hk⟩
    · rintro (h | ⟨i, hi | hi, hk⟩)
      · exact Or.inl (Or.inl h)
      · subst hi
        exact Or.inl (Or.inr hk)
      · exact Or.inr ⟨i, hi, hk⟩

theorem nodup_insertKey {l : List String} (h : l.Nodup) (x : String) :
    (insertKey l x).Nodup := by
  unfold insertKey
  split
  · exact h
  · next hx =>
    simp [List.nodup_append, h, hx]

theorem nodup_foldl_insertKey (xs : List String) {acc : List String} (h : acc.Nodup) :
    (xs.foldl insertKey acc).Nodup := by
  induction xs generalizing acc with
  | nil => exact h
  | cons x xs ih =>
    rw [List.foldl_cons]
    exact ih (nodup_insertKey h x)

theorem nodup_foldl_step {α : Type} (step : List String → α → List String)
    (hstep : ∀ acc x, acc.Nodup → (step acc x).Nodup)
    (xs : List α) {acc : List String} (h : acc.Nodup) :
    (xs.foldl step acc).Nodup := by
  induction xs generalizing acc with
  | nil => exact h
  | cons x xs ih =>
    rw [List.foldl_cons]
    exact ih (hstep acc x h)

theorem nodup_extractLinkedIssueKeys (issues : List Issue) (f : Option LinkFilter) :
    (extractLinkedIssueKeys issues f).Nodup := by
  unfold extractLinkedIssueKeys
  exact nodup_foldl_step _
    (fun acc i hacc => nodup_foldl_step _
      (fun acc2 l hacc2 => nodup_foldl_insertKey _ hacc2) _ hacc)
    issues List.nodup_nil

theorem nodup_extractParentKeys (issues : List Issue) :
    (extractParentKeys issues).Nodup := by
  unfold extractParentKeys
  exact nodup_foldl_step _ (fun acc i hacc => nodup_foldl_insertKey _ hacc) issues List.nodup_nil

theorem nodup_extractParentEpicKeys (issues : List Issue) :
    (extractParentEpicKeys issues).Nodup := by
  unfold extractParentEpicKeys
  exact nodup_foldl_step _ (fun acc i hacc => nodup_foldl_insertKey _ hacc) issues List.nodup_nil

theorem nodup_extractSubtaskKeys (issues : List Issue) :
    (extractSubtaskKeys issues).Nodup := by
  unfold extractSubtaskKeys
  exact nodup_foldl_step _ (fun acc i hacc => nodup_foldl_insertKey _ hacc) issues List.nodup_nil

theorem mem_extractLinked_aux (issues : List Issue) (f : Option LinkFilter) (k : String) :
    k ∈ extractLinkedIssueKeys issues f ↔
      ∃ i ∈ issues, ∃ l ∈ linksOf i, k ∈ linkKeys f l := by
  unfold extractLinkedIssueKeys
  rw [mem_foldl_step _ (fun i => ∃ l ∈ linksOf i, k ∈ linkKeys f l) k
    (fun acc i => by
      rw [mem_foldl_step _ (fun l => k ∈ linkKeys f l) k
        (fun acc2 l => by rw [mem_foldl_insertKey]) (linksOf i) acc])]
  simp

theorem mem_ite_singleton {c : Prop} [Decidable c] {a k : String} :
    (k ∈ (if c then [a] else [])) ↔ c ∧ k = a := by
  split <;> simp_all

theorem sideOut_iff (f : Option LinkFilter) :
    (needFilterB f = false ∨ wantOut f = true ∨ (wantIn f = false ∧ wantOut f = false)) ↔
      (f.bind LinkFilter.direction) ≠ some Direction.inward := by
  cases f with
  | none => simp [needFilterB, wantIn, wantOut]
  | some lf =>
    obtain ⟨th, dirOpt⟩ := lf
    cases dirOpt with
    | none => simp [needFilterB, wantIn, wantOut]
    | some d => cases d <;> simp [needFilterB, wantIn, wantOut]

theorem sideIn_iff (f : Option LinkFilter) :
    (needFilterB f = false ∨ wantIn f = true ∨ (wantIn f = false ∧ wantOut f = false)) ↔
      (f.bind LinkFilter.direction) ≠ some Direction.outward := by
  cases f with
  | none => simp [needFilterB, wantIn, wantOut]
  | some lf =>
    obtain ⟨th, dirOpt⟩ := lf
    cases dirOpt with
    | none => simp [needFilterB, wantIn, wantOut]
    | some d => cases d <;> simp [needFilterB, wantIn, wantOut]

theorem hintOf_empty_typeHint (dirOpt : Option Direction) :
    hintOf (some ⟨"", dirOpt⟩) = "" := rfl

theorem linkPass_iff (f : Option LinkFilter) (l : IssueLink) :
    linkPassB f l = true ↔
      (∀ lf, f = some lf → hintOf (some lf) ≠ "" →
        (hintOf (some lf) = tname l ∨ hintOf (some lf) = tinw l ∨ hintOf (some lf) = toutw l)) := by
  cases f with
  | none =>
    simp only [linkPassB, needFilterB]
    simp
  | some lf =>
    by_cases hh : hintOf (some lf) = ""
    · rw [linkPassB, if_neg (fun hc => hc.2 hh)]
      simp only [true_iff]
      intro lf2 he hne
      injection he with he2
      subst he2
      exact absurd hh hne
    · have hth : ¬ (lf.typeHint = "") := by
        intro hth
        obtain ⟨th, dirOpt⟩ := lf
        simp only at hth
        subst hth
        exact hh (hintOf_empty_typeHint dirOpt)
      have hnf : needFilterB (some lf) = true := by
        obtain ⟨th, dirOpt⟩ := lf
        simp only [needFilterB, Bool.or_eq_true, Bool.not_eq_eq_eq_not, Bool.not_false]
        exact Or.inl (by simpa using hth)
      rw [linkPassB, if_pos ⟨hnf, hh⟩]
      simp only [Bool.or_eq_true, beq_iff_eq]
      constructor
      · rintro ((h | h) | h) lf2 he hne
        all_goals injection he with he2
        all_goals subst he2
        · exact Or.inl h.symm
        · exact Or.inr (Or.inl h.symm)
        · exact Or.inr (Or.inr h.symm)
      · intro h
        rcases h lf rfl hh with h2 | h2 | h2
        · exact Or.inl (Or.inl h2.symm)
        · exact Or.inl (Or.inr h2.symm)
        · exact Or.inr h2.symm

theorem mem_linkKeys (f : Option LinkFilter) (l : IssueLink) (k : String) :
    k ∈ linkKeys f l ↔
      (∀ lf, f = some lf → hintOf (some lf) ≠ "" →
        (hintOf (some lf) = tname l ∨ hintOf (some lf) = tinw l ∨ hintOf (some lf) = toutw l))
      ∧ (((f.bind LinkFilter.direction) ≠ some Direction.inward
            ∧ refKey l.outwardIssue = k ∧ k ≠ "")
         ∨ ((f.bind LinkFilter.direction) ≠ some Direction.outward
            ∧ refKey l.inwardIssue = k ∧ k ≠ "")) := by
  by_cases hp : linkPassB f l = true
  · rw [linkKeys, if_pos hp]
    rw [List.mem_append, mem_ite_singleton, mem_ite_singleton]
    constructor
    · rintro (⟨⟨hne, hside⟩, rfl⟩ | ⟨⟨hne, hside⟩, rfl⟩)
      · exact ⟨(linkPass_iff f l).mp hp,
          Or.inl ⟨(sideOut_iff f).mp hside, rfl, hne⟩⟩
      · exact ⟨(linkPass_iff f l).mp hp,
          Or.inr ⟨(sideIn_iff f).mp hside, rfl, hne⟩⟩
    · rintro ⟨hpass, (⟨hdir, rfl, hne⟩ | ⟨hdir, rfl, hne⟩)⟩
      · exact Or.inl ⟨⟨hne, (sideOut_iff f).mpr hdir⟩, rfl⟩
      · exact Or.inr ⟨⟨hne, (sideIn_iff f).mpr hdir⟩, rfl⟩
  · rw [linkKeys, if_neg hp]
    simp only [List.not_mem_nil, false_iff, not_and]
    intro hpass
    exact absurd ((linkPass_iff f l).mpr hpass) hp

/-- Claim C3: the Linked extractor collects exactly the keys of links that
pass the filter — with a (trimmed, lowercased) nonempty typeHint the link
must match the hint on the type display name, inward label or outward
label — and only from the side the direction allows: `outward` excludes
inward targets, `inward` excludes outward targets, and with no direction
(or no filter at all) both sides are collected. -/
theorem extractLinkedIssueKeys_spec (issues : List Issue) (f : Option LinkFilter) (k : String) :
    k ∈ extractLinkedIssueKeys issues f ↔
      ∃ i ∈ issues, ∃ l ∈ linksOf i,
        (∀ lf, f = some lf → hintOf (some lf) ≠ "" →
          (hintOf (some lf) = tname l ∨ hintOf (some lf) = tinw l ∨ hintOf (some lf) = toutw l))
        ∧ (((f.bind LinkFilter.direction) ≠ some Direction.inward
              ∧ refKey l.outwardIssue = k ∧ k ≠ "")
           ∨ ((f.bind LinkFilter.direction) ≠ some Direction.outward
              ∧ refKey l.inwardIssue = k ∧ k ≠ "")) := by
  rw [mem_extractLinked_aux]
  simp only [mem_linkKeys]

theorem mem_epicKeyList (i : Issue) (k : String) :
    k ∈ epicKeyList i ↔
      ∃ p, parentOf i = some p ∧ optStr p.key = k ∧ k ≠ "" ∧ epicTypeOk p.issuetype = true := by
  unfold epicKeyList
  cases hpar : parentOf i with
  | none => simp [epicKeyOf]
  | some p =>
    simp only [epicKeyOf]
    by_cases hk : optStr p.key = ""
    · rw [if_pos hk]
      simp only [List.not_mem_nil, false_iff]
      rintro ⟨p2, hp2, hkey, hne, _⟩
      injection hp2 with hp3
      subst hp3
      exact hne (hkey ▸ hk)
    · rw [if_neg hk]
      by_cases ht : epicTypeOk p.issuetype = true
      · rw [if_pos ht]
        simp only [List.mem_singleton]
        constructor
        · rintro rfl
          exact ⟨p, rfl, rfl, hk, ht⟩
        · rintro ⟨p2, hp2, hkey, hne, ht2⟩
          injection hp2 with hp3
          subst hp3
          exact hkey.symm
      · rw [if_neg ht]
        simp only [List.not_mem_nil, false_iff]
        rintro ⟨p2, hp2, hkey, hne, ht2⟩
        injection hp2 with hp3
        subst hp3
        exact ht ht2

theorem epicTypeOk_iff (t : Option IssueTypeInfo) :
    epicTypeOk t = true ↔
      (t = none ∨ ∃ ti, t = some ti ∧
        (ti.hierarchyLevel = some 1 ∨ lowerStr (optStr ti.name) = "epic")) := by
  cases t with
  | none => simp [epicTypeOk]
  | some ti => simp [epicTypeOk]

/-- Claim C7: the EpicOf extractor collects a seed item's parent key iff
the parent is present (with a truthy key) and its issue-type descriptor
has hierarchy level 1, or its type name lowercases to `epic`, or the
descriptor is absent entirely; a present descriptor with neither level 1
nor name epic is excluded. -/
theorem extractParentEpicKeys_spec (issues : List Issue) (k : String) :
    k ∈ extractParentEpicKeys issues ↔
      ∃ i ∈ issues, ∃ p, parentOf i = some p ∧ optStr p.key = k ∧ k ≠ "" ∧
        (p.issuetype = none
         ∨ ∃ ti, p.issuetype = some ti ∧
            (ti.hierarchyLevel = some 1 ∨ lowerStr (optStr ti.name) = "epic")) := by
  unfold extractParentEpicKeys
  rw [mem_foldl_step _ (fun i => k ∈ epicKeyList i) k
    (fun acc i => by rw [mem_foldl_insertKey]) issues []]
  simp only [List.not_mem_nil, false_or, mem_epicKeyList, epicTypeOk_iff]

theorem legacyLoop_trace_len (leg : Nat → LegacyResp) (ps : Nat) :
    ∀ (fuel idx startAt : Nat) (acc : List Issue),
      (legacyLoop leg ps fuel idx startAt acc).2.length ≤ fuel := by
  intro fuel
  induction fuel with
  | zero => intro idx startAt acc; simp [legacyLoop]
  | succ fuel ih =>
    intro idx startAt acc
    simp only [legacyLoop]
    split
    · simp
    · split
      · simp
      · simp only [List.length_cons]
        exact Nat.succ_le_succ (ih _ _ _)

theorem legacyLoop_trace_pos (leg : Nat → LegacyResp) (ps : Nat)
    (fuel idx startAt : Nat) (acc : List Issue) (h : 0 < fuel) :
    0 < (legacyLoop leg ps fuel idx startAt acc).2.length := by
  cases fuel with
  | zero => omega
  | succ fuel =>
    simp only [legacyLoop]
    split
    · simp
    · split
      · simp
      · simp

theorem offsFrom_succ_left (leg : Nat → LegacyResp) (ps idx : Nat) (n : Nat) :
    offsFrom leg ps idx (n + 1) =
      legacyInc ps (leg idx) + offsFrom leg ps (idx + 1) n := by
  induction n with
  | zero => simp [offsFrom]
  | succ n ih =>
    have hidx : idx + (n + 1) = idx + 1 + n := by omega
    rw [offsFrom, ih, offsFrom, hidx, Nat.add_assoc]

theorem legacyLoop_err {leg : Nat → LegacyResp} {ps fuel idx startAt : Nat}
    {acc : List Issue} {st : Nat} {t : String}
    (hleg : leg idx = LegacyResp.httpError st t) :
    legacyLoop leg ps (fuel + 1) idx startAt acc =
      (Except.error (legFailMsg st t), [startAt]) := by
  simp only [legacyLoop, hleg]

theorem legacyLoop_stop {leg : Nat → LegacyResp} {ps fuel idx startAt : Nat}
    {acc : List Issue} {iss : Option (List Issue)} {mr total : Option Nat}
    (hleg : leg idx = LegacyResp.ok iss mr total)
    (hstop : total.getD 0 ≤ startAt + legacyInc ps (leg idx)) :
    legacyLoop leg ps (fuel + 1) idx startAt acc =
      (Except.ok (acc ++ iss.getD []), [startAt]) := by
  rw [hleg] at hstop
  simp only [legacyLoop, hleg]
  rw [if_pos hstop]

theorem legacyLoop_cont {leg : Nat → LegacyResp} {ps fuel idx startAt : Nat}
    {acc : List Issue} {iss : Option (List Issue)} {mr total : Option Nat}
    (hleg : leg idx = LegacyResp.ok iss mr total)
    (hcont : ¬ (total.getD 0 ≤ startAt + legacyInc ps (leg idx))) :
    legacyLoop leg ps (fuel + 1) idx startAt acc =
      ((legacyLoop leg ps fuel (idx + 1) (startAt + legacyInc ps (leg idx))
          (acc ++ iss.getD [])).1,
        startAt :: (legacyLoop leg ps fuel (idx + 1) (startAt + legacyInc ps (leg idx))
          (acc ++ iss.getD [])).2) := by
  rw [hleg] at hcont ⊢
  simp only [legacyLoop, hleg]
  rw [if_neg hcont]

theorem legacyLoop_trace_get (leg : Nat → LegacyResp) (ps : Nat) :
    ∀ (fuel idx startAt : Nat) (acc : List Issue) (n : Nat),
      n < (legacyLoop leg ps fuel idx startAt acc).2.length →
      (legacyLoop leg ps fuel idx startAt acc).2.get? n =
        some (startAt + offsFrom leg ps idx n) := by
  intro fuel
  induction fuel with
  | zero =>
    intro idx startAt acc n h
    simp [legacyLoop] at h
  | succ fuel ih =>
    intro idx startAt acc n h
    cases hleg : leg idx with
    | httpError st t =>
      rw [legacyLoop_err hleg] at h ⊢
      simp only [List.length_singleton] at h
      interval_cases n
      simp [offsFrom]
    | ok iss mr total =>
      by_cases hstop : total.getD 0 ≤ startAt + legacyInc ps (leg idx)
      · rw [legacyLoop_stop hleg hstop] at h ⊢
        simp only [List.length_singleton] at h
        interval_cases n
        simp [offsFrom]
      · rw [legacyLoop_cont hleg hstop] at h ⊢
        cases n with
        | zero => simp [offsFrom]
        | succ n =>
          simp only [List.length_cons, Nat.add_lt_add_iff_right] at h
          simp only [List.get?_cons_succ]
          rw [ih _ _ _ n h, offsFrom_succ_left, Nat.add_assoc]

theorem legacyLoop_trace_cont (leg : Nat → LegacyResp) (ps : Nat) :
    ∀ (fuel idx startAt : Nat) (acc : List Issue) (n : Nat),
      n + 1 < (legacyLoop leg ps fuel idx startAt acc).2.length →
      ∃ a b c, leg (idx + n) = LegacyResp.ok a b c ∧
        startAt + offsFrom leg ps idx (n + 1) < c.getD 0 := by
  intro fuel
  induction fuel with
  | zero =>
    intro idx startAt acc n h
    simp [legacyLoop] at h
  | succ fuel ih =>
    intro idx startAt acc n h
    cases hleg : leg idx with
    | httpError st t =>
      rw [legacyLoop_err hleg] at h
      simp at h
    | ok iss mr total =>
      by_cases hstop : total.getD 0 ≤ startAt + legacyInc ps (leg idx)
      · rw [legacyLoop_stop hleg hstop] at h
        simp at h
      · rw [legacyLoop_cont hleg hstop] at h
        cases n with
        | zero =>
          refine ⟨iss, mr, total, by simpa using hleg, ?_⟩
          rw [offsFrom_succ_left]
          simp only [offsFrom]
          omega
        | succ n =>
          simp only [List.length_cons, Nat.add_lt_add_iff_right] at h
          obtain ⟨a, b, c, hab, hlt⟩ := ih (idx + 1) _ _ n h
          refine ⟨a, b, c, ?_, ?_⟩
          · rw [show idx + (n + 1) = idx + 1 + n from by omega]
            exact hab
          · rw [offsFrom_succ_left]
            omega

theorem legacyLoop_trace_last (leg : Nat → LegacyResp) (ps : Nat) :
    ∀ (fuel idx startAt : Nat) (acc : List Issue) (res : List Issue),
      (legacyLoop leg ps fuel idx startAt acc).1 = Except.ok res →
      0 < (legacyLoop leg ps fuel idx startAt acc).2.length →
      (legacyLoop leg ps fuel idx startAt acc).2.length < fuel →
      ∃ a b c, leg (idx + ((legacyLoop leg ps fuel idx startAt acc).2.length - 1)) =
          LegacyResp.ok a b c ∧
        c.getD 0 ≤ startAt + offsFrom leg ps idx
          ((legacyLoop leg ps fuel idx startAt acc).2.length) := by
  intro fuel
  induction fuel with
  | zero =>
    intro idx startAt acc res hres hpos hlt
    omega
  | succ fuel ih =>
    intro idx startAt acc res hres hpos hlt
    cases hleg : leg idx with
    | httpError st t =>
      rw [legacyLoop_err hleg] at hres
      exact absurd hres (by simp)
    | ok iss mr total =>
      have hone : offsFrom leg ps idx 1 = legacyInc ps (leg idx) := by
        rw [show (1 : Nat) = 0 + 1 from rfl, offsFrom_succ_left]
        simp [offsFrom]
      by_cases hstop : total.getD 0 ≤ startAt + legacyInc ps (leg idx)
      · rw [legacyLoop_stop hleg hstop] at hres hpos hlt ⊢
        simp only [List.length_singleton]
        refine ⟨iss, mr, total, by simpa using hleg, ?_⟩
        rw [hone]
        exact hstop
      · rw [legacyLoop_cont hleg hstop] at hres hpos hlt ⊢
        simp only [List.length_cons] at hlt ⊢
        have hfuel : 0 < fuel := by omega
        have hpos2 : 0 <
            (legacyLoop leg ps fuel (idx + 1) (startAt + legacyInc ps (leg idx))
              (acc ++ iss.getD [])).2.length :=
          legacyLoop_trace_pos leg ps fuel (idx + 1) _ _ hfuel
        obtain ⟨a, b, c, hab, hle⟩ := ih (idx + 1) _ _ res hres hpos2 (by omega)
        refine ⟨a, b, c, ?_, ?_⟩
        · rw [show idx + ((legacyLoop leg ps fuel (idx + 1)
              (startAt + legacyInc ps (leg idx)) (acc ++ iss.getD [])).2.length + 1 - 1) =
            idx + 1 + ((legacyLoop leg ps fuel (idx + 1)
              (startAt + legacyInc ps (leg idx)) (acc ++ iss.getD [])).2.length - 1)
            from by omega]
          exact hab
        · rw [offsFrom_succ_left]
          omega

/-- Claim C9 (counterexample): with configured page size 100 and the
server reporting page size 150, the second request is issued at offset
150, not at min(100, 150) = 100 — the loop adds the reported size even
when it is larger than the configured one, contradicting the claim that
the reported size is used only when smaller. -/
theorem legacy_pagination_cex :
    (legacyLoop cexLeg9 100 4 0 0 []).2 = [0, 150, 300, 450]
    ∧ (legacyLoop cexLeg9 100 4 0 0 []).2.get? 1 ≠ some (min 100 150) := by
  refine ⟨by decide, by decide⟩

/-- Claim C9 (amended): in the legacy protocol the n-th page request is
issued at cumulative offset `offsFrom`, which grows per page by the
server-reported page size whenever that is nonzero — even when it is
larger than the configured page size — and by the configured page size
otherwise (`legacyInc`); a page is followed by another only while the
cumulative offset stays below the server-reported total, the loop stops
once the offset reaches the total of the last response (0 when absent),
and the page count never exceeds the cap. -/
theorem legacy_pagination_spec (leg : Nat → LegacyResp) (pageCap pageSize : Nat) :
    ((legacyLoop leg pageSize pageCap 0 0 []).2.length ≤ pageCap)
    ∧ (∀ n, n < (legacyLoop leg pageSize pageCap 0 0 []).2.length →
        (legacyLoop leg pageSize pageCap 0 0 []).2.get? n =
          some (offsFrom leg pageSize 0 n))
    ∧ (∀ n, n + 1 < (legacyLoop leg pageSize pageCap 0 0 []).2.length →
        ∃ a b c, leg n = LegacyResp.ok a b c ∧
          offsFrom leg pageSize 0 (n + 1) < c.getD 0)
    ∧ (∀ res, (legacyLoop leg pageSize pageCap 0 0 []).1 = Except.ok res →
        0 < (legacyLoop leg pageSize pageCap 0 0 []).2.length →
        (legacyLoop leg pageSize pageCap 0 0 []).2.length < pageCap →
        ∃ a b c, leg ((legacyLoop leg pageSize pageCap 0 0 []).2.length - 1) =
            LegacyResp.ok a b c ∧
          c.getD 0 ≤ offsFrom leg pageSize 0
            ((legacyLoop leg pageSize pageCap 0 0 []).2.length)) := by
  refine ⟨legacyLoop_trace_len leg pageSize pageCap 0 0 [], ?_, ?_, ?_⟩
  · intro n h
    have hg := legacyLoop_trace_get leg pageSize pageCap 0 0 [] n h
    simpa using hg
  · intro n h
    have hc := legacyLoop_trace_cont leg pageSize pageCap 0 0 [] n h
    simpa using hc
  · intro res hres hpos hlt
    have hl := legacyLoop_trace_last leg pageSize pageCap 0 0 [] res hres hpos hlt
    simpa using hl

/-- Witness for the amended claim C9 at a concrete oracle: two pages at
offsets 0 and 100, continuing past the first page because 100 < 150 and
stopping at the second because 150 ≤ 200. -/
theorem legacy_pagination_spec_witness :
    ((legacyLoop wLeg9 100 4 0 0 []).2.length ≤ 4)
    ∧ ((legacyLoop wLeg9 100 4 0 0 []).2.get? 1 = some (offsFrom wLeg9 100 0 1))
    ∧ (∃ a b c, wLeg9 0 = LegacyResp.ok a b c ∧ offsFrom wLeg9 100 0 1 < c.getD 0)
    ∧ (∃ a b c, wLeg9 ((legacyLoop wLeg9 100 4 0 0 []).2.length - 1) = LegacyResp.ok a b c ∧
        c.getD 0 ≤ offsFrom wLeg9 100 0 ((legacyLoop wLeg9 100 4 0 0 []).2.length)) := by
  have h := legacy_pagination_spec wLeg9 4 100
  exact ⟨h.1, h.2.1 1 (by decide), h.2.2.1 0 (by decide),
    h.2.2.2 [] rfl (by decide) (by decide)⟩

/-- Claim C6 (counterexample): (a) when the not-found signal arrives on
the second cursor page, the item fetched by the completed first cursor
page is retained — the result contains an issue the legacy protocol
never returned — so the retriever does not switch "entirely";
(b) a non-404 enhanced failure whose error text embeds the marker is
swallowed and triggers the fallback instead of being propagated. -/
theorem searchSeedIssues_fallback_cex :
    ((searchSeedIssues cexEnh6 cexLeg6 4 100).1 = Except.ok [cexIssueA, cexIssueB]
      ∧ cexEnh6 1 = EnhancedResp.notFound
      ∧ ∀ n iss mr tot, cexLeg6 n = LegacyResp.ok iss mr tot → cexIssueA ∉ iss.getD [])
    ∧ ((searchSeedIssues cexEnh6b cexLeg6 4 100).1 = Except.ok [cexIssueB]
      ∧ cexEnh6b 0 = EnhancedResp.httpError 500 markerStr
      ∧ ∀ e, (searchSeedIssues cexEnh6b cexLeg6 4 100).1 ≠ Except.error e) := by
  refine ⟨⟨rfl, rfl, ?_⟩, rfl, rfl, ?_⟩
  · intro n iss mr tot h
    injection h with h1 h2 h3
    subst h1
    decide
  · intro e h
    rw [show (searchSeedIssues cexEnh6b cexLeg6 4 100).1 = Except.ok [cexIssueB] from rfl] at h
    exact absurd h (by simp)

/-- Claim C6 (amended): when the cursor endpoint reports the not-found
signal on the first request, the retriever switches entirely to the
legacy protocol (the legacy run starts from an empty accumulator, so no
cursor item contributes); when the signal arrives on a later page, items
from the completed cursor pages are retained and the legacy items are
appended to them.  An enhanced failure is propagated to the caller
exactly when its message does not contain the marker text, a legacy
failure is always propagated, and extraction from any retrieved item
list yields a deduplicated key set. -/
theorem searchSeedIssues_fallback_spec (enh : Nat → EnhancedResp) (leg : Nat → LegacyResp)
    (pageCap pageSize : Nat) :
    (0 < pageCap → enh 0 = EnhancedResp.notFound →
      searchSeedIssues enh leg pageCap pageSize =
        ((legacyLoop leg pageSize pageCap 0 0 []).1,
          1 + (legacyLoop leg pageSize pageCap 0 0 []).2.length))
    ∧ (∀ accE msg nE, enhancedLoop enh pageCap 0 [] = (accE, some msg, nE) →
        strContains msg markerStr = true →
        (searchSeedIssues enh leg pageCap pageSize).1 =
          (legacyLoop leg pageSize pageCap 0 0 accE).1)
    ∧ (∀ accE msg nE, enhancedLoop enh pageCap 0 [] = (accE, some msg, nE) →
        strContains msg markerStr = false →
        (searchSeedIssues enh leg pageCap pageSize).1 = Except.error msg)
    ∧ (∀ items f, (extractLinkedIssueKeys items f).Nodup ∧ (extractParentKeys items).Nodup
        ∧ (extractParentEpicKeys items).Nodup ∧ (extractSubtaskKeys items).Nodup) := by
  refine ⟨?_, ?_, ?_, ?_⟩
  · intro hcap h0
    cases pageCap with
    | zero => omega
    | succ c =>
      have he : enhancedLoop enh (c + 1) 0 [] = ([], some markerStr, 1) := by
        simp only [enhancedLoop, h0]
      simp only [searchSeedIssues, he]
      rw [if_pos (by decide : strContains markerStr markerStr = true)]
  · intro accE msg nE he hc
    simp only [searchSeedIssues, he]
    rw [if_pos hc]
  · intro accE msg nE he hc
    simp only [searchSeedIssues, he]
    rw [if_neg (by simp [hc])]
  · intro items f
    exact ⟨nodup_extractLinkedIssueKeys items f, nodup_extractParentKeys items,
      nodup_extractParentEpicKeys items, nodup_extractSubtaskKeys items⟩

/-- Witness for the amended claim C6 at concrete oracles. -/
theorem searchSeedIssues_fallback_witness :
    (searchSeedIssues (fun _ => EnhancedResp.notFound) cexLeg6 4 100 =
      ((legacyLoop cexLeg6 100 4 0 0 []).1, 1 + (legacyLoop cexLeg6 100 4 0 0 []).2.length))
    ∧ ((searchSeedIssues cexEnh6 cexLeg6 4 100).1 =
        (legacyLoop cexLeg6 100 4 0 0 [cexIssueA]).1)
    ∧ ((searchSeedIssues (fun _ => EnhancedResp.httpError 500 "boom") cexLeg6 4 100).1 =
        Except.error (enhFailMsg 500 "boom"))
    ∧ (extractParentKeys [cexIssueA, cexIssueA]).Nodup := by
  refine ⟨?_, ?_, ?_, ?_⟩
  · exact (searchSeedIssues_fallback_spec (fun _ => EnhancedResp.notFound) cexLeg6 4 100).1
      (by decide) rfl
  · exact (searchSeedIssues_fallback_spec cexEnh6 cexLeg6 4 100).2.1
      [cexIssueA] markerStr 2 rfl (by decide)
  · exact (searchSeedIssues_fallback_spec (fun _ => EnhancedResp.httpError 500 "boom")
      cexLeg6 4 100).2.2.1 [] (enhFailMsg 500 "boom") 1 rfl (by decide)
  · exact ((searchSeedIssues_fallback_spec cexEnh6 cexLeg6 4 100).2.2.2
      [cexIssueA, cexIssueA] none).2.1

/-! ### Entry point theorems -/

theorem blankArgGivesSentinel (enh : Nat → EnhancedResp) (leg : Nat → LegacyResp)
    (args : Option Invocation) (h : jsTrim (optStr (arg0Of args)) = "") :
    issuesWithText enh leg args = (⟨SAFE_NO_MATCH⟩, 0) := by
  have hp : parseArg (arg0Of args) = ⟨Mode.linked, none, ""⟩ := by
    unfold parseArg
    rw [h]
    rfl
  simp only [issuesWithText, hp]
  rw [if_pos trivial]

/-- Claim C1: whenever seed retrieval fails, the entry point returns an
object whose jql field is exactly the nothing-matches sentinel, for
every invocation and comparison operator — no partial result and no
negated sentinel is ever returned on a failure. -/
theorem issuesWithText_never_raises (enh : Nat → EnhancedResp) (leg : Nat → LegacyResp)
    (args : Option Invocation) (msg : String)
    (h : (searchSeedIssues enh leg 4 100).1 = Except.error msg) :
    (issuesWithText enh leg args).1 = ⟨SAFE_NO_MATCH⟩ := by
  simp only [issuesWithText]
  split
  · rfl
  · rw [h]

/-- Witness for claim C1: a failing enhanced oracle with a negated
operator still yields the plain nothing-matches sentinel. -/
theorem issuesWithText_never_raises_witness :
    (searchSeedIssues (fun _ => EnhancedResp.httpError 500 "boom") cexLeg6 4 100).1 =
      Except.error (enhFailMsg 500 "boom")
    ∧ (issuesWithText (fun _ => EnhancedResp.httpError 500 "boom") cexLeg6
        (some ⟨some ⟨some "not in", some ["linked: project = A"]⟩⟩)).1 = ⟨SAFE_NO_MATCH⟩ :=
  ⟨rfl, issuesWithText_never_raises _ _ _ (enhFailMsg 500 "boom") rfl⟩

/-- Claim C5: a blank or whitespace-only argument short-circuits: the
entry point returns the nothing-matches sentinel fragment and issues no
request to either search protocol, for every operator and any behaviour
of both protocols. -/
theorem issuesWithText_blank (enh : Nat → EnhancedResp) (leg : Nat → LegacyResp)
    (args : Option Invocation) (h : jsTrim (optStr (arg0Of args)) = "") :
    issuesWithText enh leg args = (⟨SAFE_NO_MATCH⟩, 0) :=
  blankArgGivesSentinel enh leg args h

/-- Witness for claim C5 at a whitespace-only argument and a negated
operator. -/
theorem issuesWithText_blank_witness :
    jsTrim (optStr (arg0Of (some ⟨some ⟨some "not in", some ["   "]⟩⟩))) = ""
    ∧ issuesWithText (fun _ => EnhancedResp.notFound) cexLeg6
        (some ⟨some ⟨some "not in", some ["   "]⟩⟩) = (⟨SAFE_NO_MATCH⟩, 0) :=
  ⟨by decide, issuesWithText_blank _ _ _ (by decide)⟩

theorem foldl_insertKey_of_disjoint (l : List String) :
    ∀ acc, (∀ x ∈ l, x ∉ acc) → l.Nodup → l.foldl insertKey acc = acc ++ l := by
  induction l with
  | nil => intro acc _ _; simp
  | cons x xs ih =>
    intro acc hdis hnd
    rw [List.foldl_cons]
    have hxacc : x ∉ acc := hdis x (List.mem_cons_self x xs)
    have hik : insertKey acc x = acc ++ [x] := by
      unfold insertKey
      rw [if_neg hxacc]
    rw [hik, ih (acc ++ [x]) ?_ (List.nodup_cons.mp hnd).2]
    · simp
    · intro y hy
      simp only [List.mem_append, List.mem_singleton]
      rintro (hyacc | rfl)
      · exact hdis y (List.mem_cons_of_mem x hy) hyacc
      · exact (List.nodup_cons.mp hnd).1 hy

theorem dedup_of_nodup {l : List String} (h : l.Nodup) : l.foldl insertKey [] = l := by
  simpa using foldl_insertKey_of_disjoint l [] (by simp) h

/-- Claim C8: the capping step before serialization keeps exactly the
first 1000 keys in extraction (set enumeration) order: a deduplicated
key list longer than 1000 is cut to its first 1000 elements, so the
fragment built from it lists exactly 1000 quoted keys; a list of at most
1000 keys passes through unchanged. -/
theorem capKeys_spec (keys : List String) (hnd : keys.Nodup) :
    (1000 < keys.length →
      capKeys keys = keys.take 1000 ∧ (capKeys keys).length = 1000
        ∧ ((capKeys keys).map quoteKey).length = 1000)
    ∧ (keys.length ≤ 1000 → capKeys keys = keys) := by
  have hndt : (keys.take 1000).Nodup := hnd.sublist (List.take_sublist 1000 keys)
  have hcap : capKeys keys = keys.take 1000 := by
    unfold capKeys
    exact dedup_of_nodup hndt
  constructor
  · intro hlen
    have hl : (capKeys keys).length = 1000 := by
      rw [hcap, List.length_take]
      omega
    exact ⟨hcap, hl, by rw [List.length_map, hl]⟩
  · intro hlen
    rw [hcap, List.take_of_length_le hlen]

theorem bigKeys_nodup : bigKeys.Nodup := by
  unfold bigKeys
  refine List.Nodup.map ?_ (List.nodup_range 1001)
  intro a b h
  have hd : List.replicate a 'a' = List.replicate b 'a' := congrArg String.data h
  have hlen := congrArg List.length hd
  simpa using hlen

theorem bigKeys_length : bigKeys.length = 1001 := by
  simp [bigKeys]

/-- Witness for claim C8 at a concrete 1001-key list and a 5-key list. -/
theorem capKeys_spec_witness :
    1000 < bigKeys.length
    ∧ capKeys bigKeys = bigKeys.take 1000
    ∧ (capKeys bigKeys).length = 1000
    ∧ capKeys (bigKeys.take 5) = bigKeys.take 5 := by
  have hlen : 1000 < bigKeys.length := by rw [bigKeys_length]; omega
  have h1 := (capKeys_spec bigKeys bigKeys_nodup).1 hlen
  have hnd5 : (bigKeys.take 5).Nodup := bigKeys_nodup.sublist (List.take_sublist 5 bigKeys)
  have hle5 : (bigKeys.take 5).length ≤ 1000 := by
    rw [List.length_take, bigKeys_length]
    omega
  exact ⟨hlen, h1.1, h1.2.1, (capKeys_spec (bigKeys.take 5) hnd5).2 hle5⟩

/-- Claim C10 (counterexample): an invocation that is missing only the
operator (its clause carries a real first argument) does not return the
sentinel: the pipeline runs, issues a search request, and returns an
`issuekey in (...)` clause. -/
theorem issuesWithText_missing_operator_cex :
    (issuesWithText cexEnh10 cexLeg6 (some cexInv10)).1 = ⟨buildIssueKeySetJql ["X-1"] false⟩
    ∧ (issuesWithText cexEnh10 cexLeg6 (some cexInv10)).2 = 1
    ∧ cexInv10.clause.bind Clause.operator = none
    ∧ (issuesWithText cexEnh10 cexLeg6 (some cexInv10)).1 ≠ ⟨SAFE_NO_MATCH⟩ := by
  exact ⟨rfl, rfl, rfl, by decide⟩

/-- Claim C10 (amended): an absent invocation, a missing clause, or a
missing arguments array leaves the argument blank, so the entry point
returns the nothing-matches sentinel without issuing any search request;
a missing operator alone is defaulted to `in` — the pipeline behaves
exactly as with operator `in` — and does not by itself short-circuit. -/
theorem issuesWithText_missing_fields (enh : Nat → EnhancedResp) (leg : Nat → LegacyResp) :
    (issuesWithText enh leg none = (⟨SAFE_NO_MATCH⟩, 0))
    ∧ (issuesWithText enh leg (some ⟨none⟩) = (⟨SAFE_NO_MATCH⟩, 0))
    ∧ (∀ op, issuesWithText enh leg (some ⟨some ⟨op, none⟩⟩) = (⟨SAFE_NO_MATCH⟩, 0))
    ∧ (∀ argsL, issuesWithText enh leg (some ⟨some ⟨none, argsL⟩⟩) =
        issuesWithText enh leg (some ⟨some ⟨some "in", argsL⟩⟩)) := by
  have hcong : ∀ inv1 inv2 : Option Invocation, opOf inv1 = opOf inv2 →
      arg0Of inv1 = arg0Of inv2 →
      issuesWithText enh leg inv1 = issuesWithText enh leg inv2 := by
    intro inv1 inv2 hop harg
    unfold issuesWithText
    rw [hop, harg]
  refine ⟨?_, ?_, ?_, ?_⟩
  · exact blankArgGivesSentinel enh leg none (by decide)
  · exact blankArgGivesSentinel enh leg (some ⟨none⟩) (by decide)
  · intro op
    exact blankArgGivesSentinel enh leg (some ⟨some ⟨op, none⟩⟩) rfl
  · intro argsL
    exact hcong _ _ rfl rfl

end LinkedIssueJql
